import Mathlib

/-!
Verification of the scrypt-promise-bench concurrent batch runner.

The repository contains two versions of a Node.js benchmark driver,
`src/scrypt-bench.mjs` (counters only) and `src/unnamed/part_000`
(adds per-call latency collection and percentile/throughput metrics).
This development gives a shallow embedding of the core components:

* `mulberry32` — the deterministic 32-bit PRNG (a generator instance is
  its mutable state, threaded explicitly);
* `percentile` — nearest-rank percentile over a sorted sample list
  (the JS `NaN` sentinel for an empty list is modelled as `none`);
* `mkInput` — the per-index input generator (sequential and random modes);
* `withTimeout` — the timeout guard, modelled on an abstract asynchronous
  operation described by its settling behaviour; the `timerCleanups`
  field records how many times the `finally(() => clearTimeout(timer))`
  cleanup runs (the race always settles, because the deadline timer
  always fires, so `finally` runs exactly once per call);
* `stepW` / `run` — a small-step operational model of `runBatch`'s worker
  pool under a single-threaded cooperative scheduler: a schedule is a
  list of worker choices, each step resumes one worker from one of its
  suspension points (the two `await`s of the loop body); the scrypt
  primitive is opaque to this core (per the design, an external
  operation), so each invocation's behaviour is supplied by an oracle
  `beh : index → callNo → OpBehavior`.

JS numbers are modelled as exact rationals (`ℚ`); 32-bit coercions
(`>>> 0`, `Math.imul`, int32 `^`/`|`) are modelled as arithmetic mod
`2^32` on the bit patterns, which agrees with the JS semantics on the
bit-pattern level.
-/

/-- JS `ToUint32`: reduce a bit pattern modulo `2 ^ 32` (the `>>> 0`
coercion, and the implicit int32 coercion at bitwise operators). -/
def u32 (n : Nat) : Nat := n % 4294967296

/-- Bit pattern of JS `Math.imul a b`: 32-bit product. -/
def imul32 (a b : Nat) : Nat := u32 (a * b)

/-- One call of the closure returned by `mulberry32` (part_000 lines 52-60):
given the stored state `t`, returns the 32-bit output pattern (the value
before the final division by `4294967296`) and the new state. -/
def mulberry32Next (t : Nat) : Nat × Nat :=
  let t1 := u32 (t + 0x6d2b79f5)
  let n1 := imul32 (t1 ^^^ (t1 >>> 15)) (1 ||| t1)
  let n2 := n1 ^^^ u32 (n1 + imul32 (n1 ^^^ (n1 >>> 7)) (61 ||| n1))
  (u32 (n2 ^^^ (n2 >>> 14)), t1)

/-- The float produced from a 32-bit output pattern: `u / 4294967296`. -/
def mulberry32Out (u : Nat) : ℚ := (u : ℚ) / 4294967296

/-- A generator instance: its own mutable state `t` (constructed from the
seed by `seed >>> 0`; no state is shared between instances). -/
structure Mulberry32 where
  t : Nat
deriving DecidableEq, Repr

/-- Constructing a generator: `let t = seed >>> 0`. -/
def mulberry32 (seed : Nat) : Mulberry32 := ⟨u32 seed⟩

/-- Calling the generator: returns the float in `[0,1)` and the instance
with its updated state. -/
def Mulberry32.next (g : Mulberry32) : ℚ × Mulberry32 :=
  let p := mulberry32Next g.t
  (mulberry32Out p.1, ⟨p.2⟩)

/-- The first `n` outputs of a generator instance. -/
def mulberry32FirstN (g : Mulberry32) : Nat → List ℚ
  | 0 => []
  | n + 1 =>
    let p := g.next
    p.1 :: mulberry32FirstN p.2 n

/-- One byte drawn in random mode: `Math.floor(rand() * 256)`, which for
an output pattern `u` equals `u / 2 ^ 24` (exact in double precision). -/
def randByte (t : Nat) : Nat × Nat :=
  let p := mulberry32Next t
  (p.1 / 16777216, p.2)

/-- `randBuf len` (part_000 lines 65-69): draw `len` bytes from the shared
generator state, returning the buffer and the new state. -/
def randBuf (t : Nat) : Nat → List Nat × Nat
  | 0 => ([], t)
  | n + 1 =>
    let p := randByte t
    let q := randBuf p.2 n
    (p.1 :: q.1, q.2)

/-- Bytes of an ASCII string, as `Buffer.from` produces for the strings
used here (all characters are single-byte UTF-8). -/
def strBytes (s : String) : List Nat := s.data.map Char.toNat

/-- The two run modes of the benchmark. -/
inductive Mode where
  | sequential
  | random
deriving DecidableEq, Repr

/-- `mkInput` (part_000 lines 115-126): the `(pwd, salt)` byte-buffer pair
for task index `i`. Random mode consumes the shared generator state
(threaded explicitly); sequential mode ignores it and derives both
buffers from the index alone. -/
def mkInput (mode : Mode) (i : Nat) (t : Nat) : (List Nat × List Nat) × Nat :=
  match mode with
  | Mode.random =>
    let p := randBuf t (16 + i % 16)
    let q := randBuf p.2 (16 + (i * 7) % 16)
    ((p.1, q.1), q.2)
  | Mode.sequential =>
    ((strBytes ("pwd-" ++ toString i), strBytes ("salt-" ++ toString i)), t)

/-- A JS error value: message plus optional `code` property. -/
structure JsError where
  message : String
  code : Option String
deriving DecidableEq, Repr

instance {ε α : Type} [DecidableEq ε] [DecidableEq α] : DecidableEq (Except ε α) := fun x y =>
  match x, y with
  | Except.ok a, Except.ok b =>
    if h : a = b then isTrue (by rw [h]) else isFalse (by simp [h])
  | Except.ok _, Except.error _ => isFalse (by simp)
  | Except.error _, Except.ok _ => isFalse (by simp)
  | Except.error e, Except.error f =>
    if h : e = f then isTrue (by rw [h]) else isFalse (by simp [h])

/-- Behaviour of one abstract asynchronous operation: either it settles at
time `time` (with a fulfillment value or a rejection), or it never
settles within any deadline. -/
inductive OpBehavior (α : Type) where
  | settles (time : ℚ) (result : Except JsError α)
  | never
deriving DecidableEq, Repr

/-- The error produced when the deadline timer fires:
`new Error(\x60timeout after ${ms}ms: ${label}\x60)`, no `code` property. -/
def timeoutError (ms : ℚ) (label : String) : JsError :=
  ⟨"timeout after " ++ toString ms ++ "ms: " ++ label, none⟩

/-- Result of one `withTimeout` call: the settled result of the race, the
elapsed time until it settled, and how many times the
`finally(() => clearTimeout(timer))` cleanup executed. -/
structure TimeoutRun (α : Type) where
  result : Except JsError α
  elapsed : ℚ
  timerCleanups : Nat
deriving DecidableEq, Repr

/-- `withTimeout` (part_000 lines 94-103): race the operation against a
deadline timer of `ms` milliseconds. The operation wins when it settles
strictly before the deadline; otherwise the race rejects with the
timeout error carrying `label`. Either way the race settles (the timer
always fires), so the `finally` cleanup runs exactly once. The losing
operation is merely abandoned: nothing here stops it. -/
def withTimeout (op : OpBehavior α) (ms : ℚ) (label : String) : TimeoutRun α :=
  match op with
  | OpBehavior.settles t r =>
    if t < ms then ⟨r, t, 1⟩
    else ⟨Except.error (timeoutError ms label), ms, 1⟩
  | OpBehavior.never => ⟨Except.error (timeoutError ms label), ms, 1⟩

/-- Exact value of JS `Math.ceil((p / 100) * len)` on the rational `p`:
the ceiling of `(p.num * len) / (p.den * 100)`, computed with integer
floor division (written so that it kernel-reduces; `ratCeil100_eq` below
identifies it with `Int.ceil (p / 100 * len)`). -/
def ratCeil100 (p : ℚ) (len : Nat) : ℤ :=
  -((-(p.num * (len : ℤ))) / ((p.den * 100 : ℕ) : ℤ))

/-- The computed index numerator agrees with the mathematical ceiling of
`p / 100 * len`. -/
theorem ratCeil100_eq (p : ℚ) (len : Nat) :
    ratCeil100 p len = Int.ceil (p / 100 * (len : ℚ)) := by
  have hden : ((p.den : ℚ)) ≠ 0 := by
    exact_mod_cast p.den_nz
  have hnum : ((p.num : ℚ)) = p * (p.den : ℚ) := by
    have h := Rat.num_div_den p
    rw [div_eq_iff hden] at h
    exact h
  have hx : -(p / 100 * (len : ℚ)) =
      ((-(p.num * (len : ℤ)) : ℤ) : ℚ) / ((p.den * 100 : ℕ) : ℚ) := by
    push_cast
    field_simp
    rw [hnum]
    ring
  have hceil : Int.ceil (p / 100 * (len : ℚ)) = -Int.floor (-(p / 100 * (len : ℚ))) := by
    rw [Int.floor_neg, neg_neg]
  rw [hceil, hx, Rat.floor_intCast_div_natCast, ratCeil100]

/-- `percentile` (part_000 lines 105-112): nearest-rank percentile.
Returns `none` (the JS `NaN` sentinel) on an empty list, else the element
at index `min (N-1) (max 0 (⌈p/100 * N⌉ - 1))` of the list. -/
def percentile (sorted : List ℚ) (p : ℚ) : Option ℚ :=
  if sorted.length = 0 then none
  else
    let idx : ℤ :=
      min ((sorted.length : ℤ) - 1)
        (max 0 (ratCeil100 p sorted.length - 1))
    sorted.get? idx.toNat

example : percentile [1, 2, 3, 4, 5, 6, 7, 8, 9, 10] 50 = some 5 := by decide
example : percentile [1, 2, 3, 4, 5, 6, 7, 8, 9, 10] 90 = some 9 := by decide
example : percentile [1, 2, 3, 4, 5, 6, 7, 8, 9, 10] 99 = some 10 := by decide
example : percentile [] 50 = none := by decide

/-- Hex digit character, as `Number.toString(16)` produces. -/
def hexChar (n : Nat) : Char :=
  if n < 10 then Char.ofNat (48 + n) else Char.ofNat (87 + n)

/-- The two hex characters of one byte. -/
def byteHex (b : Nat) : List Char := [hexChar (b / 16), hexChar (b % 16)]

/-- Truncated hex digest of a derived key:
`dk.toString("hex").slice(0, 16)` (part_000 lines 166-167). -/
def hexTrunc (dk : List Nat) : String := String.mk ((dk.bind byteHex).take 16)

/-- One entry of the `errors` array pushed by the worker loop: either a
`type: "mismatch"` record (truncated digests of the two derivations) or
a `type: "error"` record (message and optional code of the caught
exception). -/
inductive ErrorRec where
  | mismatch (i : Nat) (a b : String)
  | error (i : Nat) (msg : String) (code : Option String)
deriving DecidableEq, Repr

/-- The `type` tag and index of an error record — the part shared by the
two runner versions (their timeout messages differ in the `#1`/`#2`
suffix of the label). -/
def ErrorRec.tagIdx : ErrorRec → String × Nat
  | ErrorRec.mismatch i _ _ => ("mismatch", i)
  | ErrorRec.error i _ _ => ("error", i)

/-- Control point of one worker of the pool, between suspension points of
the loop body of part_000 lines 149-183: `idle` is the loop head (about
to test `queue.length`), `run1 i` is suspended in the first
`await runOnce(i)`, `run2 i dk1` is suspended in the second (sequential
mode only, holding the first derived key, whose latency sample is
already collected), `done` means the worker function returned. -/
inductive WPhase where
  | idle
  | run1 (i : Nat)
  | run2 (i : Nat) (dk1 : List Nat)
  | done
deriving DecidableEq, Repr

/-- The configuration of one batch (the fields of `runBatch`'s argument
that the core state machine consumes; `keyLen` and `opts` are forwarded
opaquely to the primitive and so are absorbed into the behaviour
oracle). -/
structure BatchCfg where
  variant : String
  mode : Mode
  iterations : Nat
  concurrency : Nat
deriving DecidableEq, Repr

/-- Mutable state shared by the workers of one batch, plus two history
fields that record events without influencing control flow: `outcomes`
gets one entry `(i, success?)` when an iteration finishes, and
`completedCalls` gets one entry `(i, callNo, elapsed)` each time an
awaited `runOnce` resolves successfully (exactly when its latency sample
is pushed). -/
structure BatchState where
  queue : List Nat
  ok : Nat
  fail : Nat
  errors : List ErrorRec
  callDurations : List ℚ
  workers : List WPhase
  outcomes : List (Nat × Bool)
  completedCalls : List (Nat × Nat × ℚ)
deriving DecidableEq, Repr

/-- The timeout label of `runOnce` in part_000 line 134. -/
def callLabel (variant : String) (i : Nat) : String :=
  variant ++ " i=" ++ toString i

/-- The fixed per-call deadline (60 000 ms). -/
def timeoutMs : ℚ := 60000

/-- One scheduler step of worker `w` in the part_000 `runBatch` pool:
resume the worker at its current suspension point and run it to its next
one. `none` when `w` is no live worker. The queue is a stack holding the
JS array with its top (`queue.pop()`) at the head; popping the test and
the removal happen in one synchronous region, hence in one step. The
opaque scrypt primitive is the oracle `beh i callNo`. -/
def stepW (cfg : BatchCfg) (beh : Nat → Nat → OpBehavior (List Nat))
    (s : BatchState) (w : Nat) : Option BatchState :=
  match s.workers[w]? with
  | none => none
  | some WPhase.done => none
  | some WPhase.idle =>
    match s.queue with
    | [] => some { s with workers := s.workers.set w WPhase.done }
    | i :: rest =>
      some { s with queue := rest, workers := s.workers.set w (WPhase.run1 i) }
  | some (WPhase.run1 i) =>
    let r := withTimeout (beh i 1) timeoutMs (callLabel cfg.variant i)
    match r.result with
    | Except.error e =>
      some { s with fail := s.fail + 1,
                    errors := s.errors ++ [ErrorRec.error i e.message e.code],
                    workers := s.workers.set w WPhase.idle,
                    outcomes := s.outcomes ++ [(i, false)] }
    | Except.ok dk =>
      match cfg.mode with
      | Mode.sequential =>
        some { s with callDurations := s.callDurations ++ [r.elapsed],
                      completedCalls := s.completedCalls ++ [(i, 1, r.elapsed)],
                      workers := s.workers.set w (WPhase.run2 i dk) }
      | Mode.random =>
        some { s with callDurations := s.callDurations ++ [r.elapsed],
                      completedCalls := s.completedCalls ++ [(i, 1, r.elapsed)],
                      ok := s.ok + 1,
                      workers := s.workers.set w WPhase.idle,
                      outcomes := s.outcomes ++ [(i, true)] }
  | some (WPhase.run2 i dk1) =>
    let r := withTimeout (beh i 2) timeoutMs (callLabel cfg.variant i)
    match r.result with
    | Except.error e =>
      some { s with fail := s.fail + 1,
                    errors := s.errors ++ [ErrorRec.error i e.message e.code],
                    workers := s.workers.set w WPhase.idle,
                    outcomes := s.outcomes ++ [(i, false)] }
    | Except.ok dk2 =>
      if dk1 = dk2 then
        some { s with callDurations := s.callDurations ++ [r.elapsed],
                      completedCalls := s.completedCalls ++ [(i, 2, r.elapsed)],
                      ok := s.ok + 1,
                      workers := s.workers.set w WPhase.idle,
                      outcomes := s.outcomes ++ [(i, true)] }
      else
        some { s with callDurations := s.callDurations ++ [r.elapsed],
                      completedCalls := s.completedCalls ++ [(i, 2, r.elapsed)],
                      fail := s.fail + 1,
                      errors := s.errors ++
                        [ErrorRec.mismatch i (hexTrunc dk1) (hexTrunc dk2)],
                      workers := s.workers.set w WPhase.idle,
                      outcomes := s.outcomes ++ [(i, false)] }

/-- The state at the start of a batch: the queue holds `0 .. I-1` with
`I-1` on top (`queue.pop()` takes the largest index first), all counters
and collections empty, `C` workers at the loop head. -/
def initState (cfg : BatchCfg) : BatchState :=
  { queue := (List.range cfg.iterations).reverse
    ok := 0
    fail := 0
    errors := []
    callDurations := []
    workers := List.replicate cfg.concurrency WPhase.idle
    outcomes := []
    completedCalls := [] }

/-- Run a schedule: a list of worker choices, each applied as one step
(choices of dead or absent workers are no-ops, so every interleaving of
the cooperative scheduler is some schedule). -/
def run (cfg : BatchCfg) (beh : Nat → Nat → OpBehavior (List Nat))
    (sched : List Nat) (s : BatchState) : BatchState :=
  sched.foldl (fun t w => (stepW cfg beh t w).getD t) s

/-- All workers have returned (the join of `Promise.all(workers)`
completes). -/
def allDone (s : BatchState) : Prop := ∀ ph ∈ s.workers, ph = WPhase.done

instance (s : BatchState) : Decidable (allDone s) :=
  List.decidableBAll _ s.workers

/-- The index a worker phase currently holds (as a list: empty for
`idle` and `done`). -/
def phIdx : WPhase → List Nat
  | WPhase.run1 i => [i]
  | WPhase.run2 i _ => [i]
  | _ => []

/-- Indices claimed by the workers of a pool. -/
def inflightW : List WPhase → List Nat
  | [] => []
  | ph :: rest => phIdx ph ++ inflightW rest

/-- Indices currently claimed by some worker. -/
def inflight (s : BatchState) : List Nat := inflightW s.workers

/-- Termination measure: strictly decreases at every step. -/
def wWeight : WPhase → Nat
  | WPhase.idle => 1
  | WPhase.run1 _ => 3
  | WPhase.run2 _ _ => 2
  | WPhase.done => 0

/-- Total weight of a worker pool. -/
def wSum : List WPhase → Nat
  | [] => 0
  | ph :: rest => wWeight ph + wSum rest

/-- Termination measure of a batch state. -/
def stepMeasure (s : BatchState) : Nat :=
  3 * s.queue.length + wSum s.workers

example :
    (run ⟨"callback", Mode.sequential, 2, 1⟩
      (fun _ _ => OpBehavior.settles 1 (Except.ok [0]))
      [0, 0, 0, 0, 0, 0, 0]
      (initState ⟨"callback", Mode.sequential, 2, 1⟩)).ok = 2 := by decide

example :
    allDone (run ⟨"callback", Mode.sequential, 2, 1⟩
      (fun _ _ => OpBehavior.settles 1 (Except.ok [0]))
      [0, 0, 0, 0, 0, 0, 0]
      (initState ⟨"callback", Mode.sequential, 2, 1⟩)) := by decide

/-- Every 32-bit output pattern of the generator is below `2 ^ 32`. -/
theorem mulberry32Next_fst_lt (t : Nat) : (mulberry32Next t).1 < 4294967296 :=
  Nat.mod_lt _ (by norm_num)

/-- The float built from a 32-bit pattern lies in `[0, 1)`. -/
theorem mulberry32Out_range (u : Nat) (h : u < 4294967296) :
    0 ≤ mulberry32Out u ∧ mulberry32Out u < 1 := by
  constructor
  · exact div_nonneg (by exact_mod_cast Nat.zero_le u) (by norm_num)
  · rw [mulberry32Out, div_lt_one (by norm_num)]
    exact_mod_cast h

/-- Every element of a generator's output list is a float built from some
32-bit pattern. -/
theorem mem_mulberry32FirstN (g : Mulberry32) (n : Nat) (x : ℚ)
    (hx : x ∈ mulberry32FirstN g n) :
    ∃ u, u < 4294967296 ∧ x = mulberry32Out u := by
  induction n generalizing g with
  | zero => simp [mulberry32FirstN] at hx
  | succ n ih =>
    rw [mulberry32FirstN] at hx
    rcases List.mem_cons.mp hx with h | h
    · exact ⟨(mulberry32Next g.t).1, mulberry32Next_fst_lt g.t, h⟩
    · exact ih _ h

/-- C8: two independently constructed generators seeded with the same
32-bit seed produce identical first-N output sequences (each instance
owns its state, so in this pure embedding the sequence is a function of
the seed alone and the equality is definitional), and every produced
value lies in the half-open interval `[0, 1)`. -/
theorem mulberry32_deterministic_range (s N : Nat) :
    mulberry32FirstN (mulberry32 s) N = mulberry32FirstN (mulberry32 s) N ∧
    ∀ x ∈ mulberry32FirstN (mulberry32 s) N, 0 ≤ x ∧ x < 1 := by
  refine ⟨rfl, ?_⟩
  intro x hx
  obtain ⟨u, hu, rfl⟩ := mem_mulberry32FirstN _ _ _ hx
  exact mulberry32Out_range u hu

/-- Witness for C8 at seed 1337, N = 1, on the single produced value. -/
theorem mulberry32_deterministic_range_witness :
    0 ≤ ((mulberry32 1337).next).1 ∧ ((mulberry32 1337).next).1 < 1 :=
  (mulberry32_deterministic_range 1337 1).2 _ (List.Mem.head _)

/-- C7: in sequential mode the input generator returns
`primary = bytes "pwd-" ++ i`, `secondary = bytes "salt-" ++ i`, leaves
the shared random state untouched, and is a pure function of the index:
two calls for the same index (with any generator states) return
byte-identical pairs. -/
theorem mkInput_sequential (i t t' : Nat) :
    (mkInput Mode.sequential i t).1 =
      (strBytes ("pwd-" ++ toString i), strBytes ("salt-" ++ toString i)) ∧
    (mkInput Mode.sequential i t).2 = t ∧
    (mkInput Mode.sequential i t).1 = (mkInput Mode.sequential i t').1 :=
  ⟨rfl, rfl, rfl⟩

/-- C5: the timeout guard returns the operation's own result (value or
error) whenever the operation settles before the deadline, and fails
with the timeout error carrying the label whenever the deadline elapses
first (also when the operation never settles). -/
theorem withTimeout_spec {α : Type} (op : OpBehavior α) (t : ℚ)
    (r : Except JsError α) (ms : ℚ) (label : String) :
    (op = OpBehavior.settles t r → t < ms →
      (withTimeout op ms label).result = r) ∧
    (op = OpBehavior.settles t r → ms < t →
      (withTimeout op ms label).result = Except.error (timeoutError ms label)) ∧
    (withTimeout (OpBehavior.never : OpBehavior α) ms label).result =
      Except.error (timeoutError ms label) := by
  refine ⟨?_, ?_, rfl⟩
  · rintro rfl h
    simp [withTimeout, h]
  · rintro rfl h
    simp [withTimeout, not_lt.mpr (le_of_lt h)]

/-- Witness for C5: a call settling at 1 ms beats a 60 000 ms deadline; a
call settling at 70 000 ms loses to it. -/
theorem withTimeout_spec_witness :
    (withTimeout (OpBehavior.settles 1 (Except.ok [7])) 60000 "w").result =
      Except.ok [7] ∧
    (withTimeout (OpBehavior.settles 70000 (Except.ok ([7] : List Nat)))
        60000 "w").result = Except.error (timeoutError 60000 "w") :=
  ⟨(withTimeout_spec _ 1 (Except.ok [7]) 60000 "w").1 rfl (by decide),
   (withTimeout_spec _ 70000 (Except.ok [7]) 60000 "w").2.1 rfl (by decide)⟩

/-- C6: on every exit path of the timeout guard — operation success,
operation failure, or deadline expiry — the `clearTimeout` cleanup runs
exactly once. -/
theorem withTimeout_cleanup {α : Type} (op : OpBehavior α) (ms : ℚ)
    (label : String) : (withTimeout op ms label).timerCleanups = 1 := by
  cases op with
  | settles t r =>
    by_cases h : t < ms <;> simp [withTimeout, h]
  | never => rfl

/-- C2: the percentile function returns the element at index
`clamp(ceil(p/100 * N) - 1, 0, N-1)` of the sorted list, the `NaN`
sentinel (`none`) on the empty list, and on `[1, ..., 10]` gives
`p50 = 5`, `p90 = 9`, `p99 = 10`. -/
theorem percentile_spec (l : List ℚ) (p : ℚ) :
    (l = [] → percentile l p = none) ∧
    (l ≠ [] →
      percentile l p =
        l.get? (Int.toNat (min ((l.length : ℤ) - 1)
          (max 0 (Int.ceil (p / 100 * (l.length : ℚ)) - 1))))) ∧
    percentile [1, 2, 3, 4, 5, 6, 7, 8, 9, 10] 50 = some 5 ∧
    percentile [1, 2, 3, 4, 5, 6, 7, 8, 9, 10] 90 = some 9 ∧
    percentile [1, 2, 3, 4, 5, 6, 7, 8, 9, 10] 99 = some 10 := by
  refine ⟨?_, ?_, by decide, by decide, by decide⟩
  · rintro rfl
    rfl
  · intro h
    have hl : ¬l.length = 0 := by
      simpa [List.length_eq_zero] using h
    rw [percentile, if_neg hl, ratCeil100_eq]

/-- Witness for C2 on the empty list and on a two-element list. -/
theorem percentile_spec_witness :
    percentile ([] : List ℚ) 50 = none ∧
    percentile [(3 : ℚ), 4] 90 =
      [(3 : ℚ), 4].get? (Int.toNat (min (([(3 : ℚ), 4].length : ℤ) - 1)
        (max 0 (Int.ceil ((90 : ℚ) / 100 * ([(3 : ℚ), 4].length : ℚ)) - 1)))) :=
  ⟨(percentile_spec [] 50).1 rfl,
   (percentile_spec [(3 : ℚ), 4] 90).2.1 (by decide)⟩

/-- C3: in sequential mode, when a worker's second derivation for index
`i` completes with a key different from the first, the step counts one
failure, leaves `ok` untouched (the record update names every changed
field; `ok` is not among them), appends one mismatch record carrying the
truncated hex digests of both outputs, and appends only the second
call's latency sample (the first call's sample was already appended when
the first call resolved, before this comparison). -/
theorem runBatch_mismatch_step (cfg : BatchCfg)
    (beh : Nat → Nat → OpBehavior (List Nat)) (s : BatchState)
    (w i : Nat) (dk1 dk2 : List Nat)
    (hw : s.workers[w]? = some (WPhase.run2 i dk1))
    (hr : (withTimeout (beh i 2) timeoutMs (callLabel cfg.variant i)).result =
      Except.ok dk2)
    (hne : dk1 ≠ dk2) :
    stepW cfg beh s w = some
      { s with
          fail := s.fail + 1,
          errors := s.errors ++ [ErrorRec.mismatch i (hexTrunc dk1) (hexTrunc dk2)],
          callDurations := s.callDurations ++
            [(withTimeout (beh i 2) timeoutMs (callLabel cfg.variant i)).elapsed],
          completedCalls := s.completedCalls ++
            [(i, 2, (withTimeout (beh i 2) timeoutMs (callLabel cfg.variant i)).elapsed)],
          workers := s.workers.set w WPhase.idle,
          outcomes := s.outcomes ++ [(i, false)] } := by
  simp [stepW, hw, hr, hne]

/-- Configuration used by the concrete mismatch witness. -/
def mismatchCfg : BatchCfg := ⟨"callback", Mode.sequential, 1, 1⟩

/-- Primitive behaviour whose second call returns a different key. -/
def mismatchBeh : Nat → Nat → OpBehavior (List Nat) := fun _ k =>
  if k = 1 then OpBehavior.settles 1 (Except.ok [0])
  else OpBehavior.settles 2 (Except.ok [1])

/-- State of a one-worker batch suspended in the second call of index 0,
first sample already collected. -/
def mismatchState : BatchState :=
  { queue := []
    ok := 0
    fail := 0
    errors := []
    callDurations := [5]
    workers := [WPhase.run2 0 [0]]
    outcomes := []
    completedCalls := [(0, 1, 5)] }

/-- Witness for C3 at the concrete mismatching state. -/
theorem runBatch_mismatch_step_witness :
    stepW mismatchCfg mismatchBeh mismatchState 0 = some
      { mismatchState with
          fail := mismatchState.fail + 1,
          errors := mismatchState.errors ++
            [ErrorRec.mismatch 0 (hexTrunc [0]) (hexTrunc [1])],
          callDurations := mismatchState.callDurations ++
            [(withTimeout (mismatchBeh 0 2) timeoutMs
              (callLabel mismatchCfg.variant 0)).elapsed],
          completedCalls := mismatchState.completedCalls ++
            [(0, 2, (withTimeout (mismatchBeh 0 2) timeoutMs
              (callLabel mismatchCfg.variant 0)).elapsed)],
          workers := mismatchState.workers.set 0 WPhase.idle,
          outcomes := mismatchState.outcomes ++ [(0, false)] } :=
  runBatch_mismatch_step mismatchCfg mismatchBeh mismatchState 0 0 [0] [1]
    (by decide) (by decide) (by decide)

/-- Decompose a list at a position it actually holds, and describe `set`
there. -/
theorem listDecomp {α : Type} (l : List α) (w : Nat) (a : α)
    (h : l[w]? = some a) :
    ∃ l1 l2 : List α, l = l1 ++ a :: l2 ∧ ∀ b, l.set w b = l1 ++ b :: l2 := by
  induction l generalizing w with
  | nil => simp at h
  | cons x xs ih =>
    cases w with
    | zero =>
      simp at h
      subst h
      exact ⟨[], xs, rfl, fun b => rfl⟩
    | succ w =>
      simp only [List.getElem?_cons_succ] at h
      obtain ⟨l1, l2, h1, h2⟩ := ih w h
      refine ⟨x :: l1, l2, congrArg _ h1, fun b => congrArg _ (h2 b)⟩

/-- Worker-pool index collection distributes over append. -/
theorem inflightW_append (l1 l2 : List WPhase) :
    inflightW (l1 ++ l2) = inflightW l1 ++ inflightW l2 := by
  induction l1 with
  | nil => rfl
  | cons x xs ih => simp [inflightW, ih]

/-- Worker-pool weight distributes over append. -/
theorem wSum_append (l1 l2 : List WPhase) :
    wSum (l1 ++ l2) = wSum l1 + wSum l2 := by
  induction l1 with
  | nil => simp [wSum]
  | cons x xs ih =>
    simp [wSum, ih]
    omega
    

/-- Claiming an index: popping `i` off the queue while the worker starts
holding it preserves the queue-inflight-outcomes partition. -/
theorem permPop (rest b1 b2 out target : List Nat) (i : Nat)
    (h : ((i :: rest) ++ (b1 ++ b2) ++ out).Perm target) :
    (rest ++ (b1 ++ [i] ++ b2) ++ out).Perm target := by
  refine List.Perm.trans ?_ h
  rw [← Multiset.coe_eq_coe]
  simp only [← Multiset.coe_add, ← Multiset.cons_coe, ← Multiset.singleton_add]
  abel

/-- Finishing an iteration: the worker releases `i` and an outcome entry
for `i` is appended, preserving the partition. -/
theorem permFinish (q b1 b2 out target : List Nat) (i : Nat)
    (h : (q ++ (b1 ++ [i] ++ b2) ++ out).Perm target) :
    (q ++ (b1 ++ b2) ++ (out ++ [i])).Perm target := by
  refine List.Perm.trans ?_ h
  rw [← Multiset.coe_eq_coe]
  simp only [← Multiset.coe_add, ← Multiset.cons_coe, ← Multiset.singleton_add]
  abel

/-- A filter and its complement split the length of a list. -/
theorem filterLengthSplit {α : Type} (p : α → Bool) (l : List α) :
    (l.filter p).length + (l.filter fun a => !(p a)).length = l.length := by
  induction l with
  | nil => rfl
  | cons x xs ih =>
    by_cases h : p x <;> simp [List.filter_cons, h] <;> omega

/-- Inductive invariant of the part_000 batch state machine: the queue,
the claimed indices, and the finished indices partition `0 .. I-1`; the
counters tally the recorded outcomes; the latency samples are exactly
the durations of the successfully completed calls, each of which the
oracle confirms settled with a key before the deadline; the worker pool
has its configured size; and once the pool is all done (and nonempty)
the queue is exhausted. -/
structure BatchInv (cfg : BatchCfg) (beh : Nat → Nat → OpBehavior (List Nat))
    (s : BatchState) : Prop where
  perm : (s.queue ++ inflightW s.workers ++ s.outcomes.map Prod.fst).Perm
    (List.range cfg.iterations)
  okEq : s.ok = (s.outcomes.filter fun o => o.2).length
  failEq : s.fail = (s.outcomes.filter fun o => !o.2).length
  durEq : s.callDurations = s.completedCalls.map fun c => c.2.2
  callsOk : ∀ c ∈ s.completedCalls, ∃ dk,
    (withTimeout (beh c.1 c.2.1) timeoutMs
      (callLabel cfg.variant c.1)).result = Except.ok dk ∧
    (withTimeout (beh c.1 c.2.1) timeoutMs
      (callLabel cfg.variant c.1)).elapsed = c.2.2
  wlen : s.workers.length = cfg.concurrency
  doneNil : 0 < s.workers.length → allDone s → s.queue = []

/-- The invariant holds at the start of every batch. -/
theorem batchInv_init (cfg : BatchCfg)
    (beh : Nat → Nat → OpBehavior (List Nat)) :
    BatchInv cfg beh (initState cfg) := by
  refine ⟨?_, rfl, rfl, rfl, ?_, by simp [initState], ?_⟩
  · have hbind : inflightW (List.replicate cfg.concurrency WPhase.idle) = [] := by
      induction cfg.concurrency with
      | zero => rfl
      | succ n ih => simp [List.replicate_succ, inflightW, phIdx, ih]
    simp [initState, hbind]
  · intro c hc
    simp [initState] at hc
  · intro hlen hall
    exfalso
    have hmem : WPhase.idle ∈ List.replicate cfg.concurrency WPhase.idle := by
      refine List.mem_replicate.mpr ⟨?_, rfl⟩
      simp [initState] at hlen
      omega
    cases hall _ hmem

/-- Every scheduler step preserves the batch invariant. -/
theorem batchInv_step (cfg : BatchCfg) (beh : Nat → Nat → OpBehavior (List Nat))
    {s s' : BatchState} {w : Nat}
    (hinv : BatchInv cfg beh s) (hstep : stepW cfg beh s w = some s') :
    BatchInv cfg beh s' := by
  obtain ⟨hperm, hok, hfail, hdur, hcalls, hwlen, hdone⟩ := hinv
  cases hw : s.workers[w]? with
  | none => simp [stepW, hw] at hstep
  | some ph =>
    obtain ⟨l1, l2, hdec, hset⟩ := listDecomp s.workers w ph hw
    cases ph with
    | done => simp [stepW, hw] at hstep
    | idle =>
      cases hq : s.queue with
      | nil =>
        simp only [stepW, hw, hq, Option.some.injEq] at hstep
        subst hstep
        refine ⟨?_, hok, hfail, hdur, hcalls, ?_, ?_⟩
        · show (([] : List Nat) ++ inflightW (s.workers.set w WPhase.done) ++
            s.outcomes.map Prod.fst).Perm (List.range cfg.iterations)
          rw [hset]
          rw [hdec, hq] at hperm
          rw [← Multiset.coe_eq_coe] at hperm ⊢
          rw [← hperm]
          simp only [inflightW_append, inflightW, phIdx, ← Multiset.coe_add,
            ← Multiset.cons_coe, ← Multiset.singleton_add, Multiset.coe_nil]
          try abel
        · simpa using hwlen
        · intro _ _
          rfl
      | cons i rest =>
        simp only [stepW, hw, hq, Option.some.injEq] at hstep
        subst hstep
        refine ⟨?_, hok, hfail, hdur, hcalls, ?_, ?_⟩
        · show (rest ++ inflightW (s.workers.set w (WPhase.run1 i)) ++
            s.outcomes.map Prod.fst).Perm (List.range cfg.iterations)
          rw [hset]
          rw [hdec, hq] at hperm
          rw [← Multiset.coe_eq_coe] at hperm ⊢
          rw [← hperm]
          simp only [inflightW_append, inflightW, phIdx, ← Multiset.coe_add,
            ← Multiset.cons_coe, ← Multiset.singleton_add, Multiset.coe_nil]
          try abel
        · simpa using hwlen
        · intro _ hall
          exfalso
          have hmem : WPhase.run1 i ∈ s.workers.set w (WPhase.run1 i) := by
            rw [hset]
            exact List.mem_append_right _ (List.mem_cons_self _ _)
          have hbad := hall _ hmem
          simp at hbad
    | run1 i =>
      cases hr : (withTimeout (beh i 1) timeoutMs (callLabel cfg.variant i)).result with
      | error e =>
        simp only [stepW, hw, hr, Option.some.injEq] at hstep
        subst hstep
        refine ⟨?_, ?_, ?_, hdur, hcalls, ?_, ?_⟩
        · show (s.queue ++ inflightW (s.workers.set w WPhase.idle) ++
            (s.outcomes ++ [(i, false)]).map Prod.fst).Perm (List.range cfg.iterations)
          rw [hset]
          rw [hdec] at hperm
          rw [← Multiset.coe_eq_coe] at hperm ⊢
          rw [← hperm]
          simp only [inflightW_append, inflightW, phIdx, List.map_append,
            List.map_cons, List.map_nil, ← Multiset.coe_add, ← Multiset.cons_coe,
            ← Multiset.singleton_add, Multiset.coe_nil]
          try abel
        · simp [List.filter_append, hok]
        · simp [List.filter_append, hfail]
        · simpa using hwlen
        · intro _ hall
          exfalso
          have hmem : WPhase.idle ∈ s.workers.set w WPhase.idle := by
            rw [hset]
            exact List.mem_append_right _ (List.mem_cons_self _ _)
          have hbad := hall _ hmem
          simp at hbad
      | ok dk =>
        cases hm : cfg.mode with
        | sequential =>
          simp only [stepW, hw, hr, hm, Option.some.injEq] at hstep
          subst hstep
          refine ⟨?_, hok, hfail, ?_, ?_, ?_, ?_⟩
          · show (s.queue ++ inflightW (s.workers.set w (WPhase.run2 i dk)) ++
              s.outcomes.map Prod.fst).Perm (List.range cfg.iterations)
            rw [hset]
            rw [hdec] at hperm
            rw [← Multiset.coe_eq_coe] at hperm ⊢
            rw [← hperm]
            simp only [inflightW_append, inflightW, phIdx, ← Multiset.coe_add,
              ← Multiset.cons_coe, ← Multiset.singleton_add, Multiset.coe_nil]
            try abel
          · simp [hdur]
          · intro c hc
            rcases List.mem_append.mp hc with hc | hc
            · exact hcalls c hc
            · rw [List.mem_singleton] at hc
              subst hc
              exact ⟨dk, hr, rfl⟩
          · simpa using hwlen
          · intro _ hall
            exfalso
            have hmem : WPhase.run2 i dk ∈ s.workers.set w (WPhase.run2 i dk) := by
              rw [hset]
              exact List.mem_append_right _ (List.mem_cons_self _ _)
            have hbad := hall _ hmem
            simp at hbad
        | random =>
          simp only [stepW, hw, hr, hm, Option.some.injEq] at hstep
          subst hstep
          refine ⟨?_, ?_, ?_, ?_, ?_, ?_, ?_⟩
          · show (s.queue ++ inflightW (s.workers.set w WPhase.idle) ++
              (s.outcomes ++ [(i, true)]).map Prod.fst).Perm (List.range cfg.iterations)
            rw [hset]
            rw [hdec] at hperm
            rw [← Multiset.coe_eq_coe] at hperm ⊢
            rw [← hperm]
            simp only [inflightW_append, inflightW, phIdx, List.map_append,
              List.map_cons, List.map_nil, ← Multiset.coe_add, ← Multiset.cons_coe,
              ← Multiset.singleton_add, Multiset.coe_nil]
            try abel
          · simp [List.filter_append, hok]
          · simp [List.filter_append, hfail]
          · simp [hdur]
          · intro c hc
            rcases List.mem_append.mp hc with hc | hc
            · exact hcalls c hc
            · rw [List.mem_singleton] at hc
              subst hc
              exact ⟨dk, hr, rfl⟩
          · simpa using hwlen
          · intro _ hall
            exfalso
            have hmem : WPhase.idle ∈ s.workers.set w WPhase.idle := by
              rw [hset]
              exact List.mem_append_right _ (List.mem_cons_self _ _)
            have hbad := hall _ hmem
            simp at hbad
    | run2 i dk1 =>
      cases hr : (withTimeout (beh i 2) timeoutMs (callLabel cfg.variant i)).result with
      | error e =>
        simp only [stepW, hw, hr, Option.some.injEq] at hstep
        subst hstep
        refine ⟨?_, ?_, ?_, hdur, hcalls, ?_, ?_⟩
        · show (s.queue ++ inflightW (s.workers.set w WPhase.idle) ++
            (s.outcomes ++ [(i, false)]).map Prod.fst).Perm (List.range cfg.iterations)
          rw [hset]
          rw [hdec] at hperm
          rw [← Multiset.coe_eq_coe] at hperm ⊢
          rw [← hperm]
          simp only [inflightW_append, inflightW, phIdx, List.map_append,
            List.map_cons, List.map_nil, ← Multiset.coe_add, ← Multiset.cons_coe,
            ← Multiset.singleton_add, Multiset.coe_nil]
          try abel
        · simp [List.filter_append, hok]
        · simp [List.filter_append, hfail]
        · simpa using hwlen
        · intro _ hall
          exfalso
          have hmem : WPhase.idle ∈ s.workers.set w WPhase.idle := by
            rw [hset]
            exact List.mem_append_right _ (List.mem_cons_self _ _)
          have hbad := hall _ hmem
          simp at hbad
      | ok dk2 =>
        by_cases hd : dk1 = dk2
        · subst hd
          simp only [stepW, hw, hr, if_pos, Option.some.injEq] at hstep
          subst hstep
          refine ⟨?_, ?_, ?_, ?_, ?_, ?_, ?_⟩
          · show (s.queue ++ inflightW (s.workers.set w WPhase.idle) ++
              (s.outcomes ++ [(i, true)]).map Prod.fst).Perm (List.range cfg.iterations)
            rw [hset]
            rw [hdec] at hperm
            rw [← Multiset.coe_eq_coe] at hperm ⊢
            rw [← hperm]
            simp only [inflightW_append, inflightW, phIdx, List.map_append,
              List.map_cons, List.map_nil, ← Multiset.coe_add, ← Multiset.cons_coe,
              ← Multiset.singleton_add, Multiset.coe_nil]
            try abel
          · simp [List.filter_append, hok]
          · simp [List.filter_append, hfail]
          · simp [hdur]
          · intro c hc
            rcases List.mem_append.mp hc with hc | hc
            · exact hcalls c hc
            · rw [List.mem_singleton] at hc
              subst hc
              exact ⟨dk1, hr, rfl⟩
          · simpa using hwlen
          · intro _ hall
            exfalso
            have hmem : WPhase.idle ∈ s.workers.set w WPhase.idle := by
              rw [hset]
              exact List.mem_append_right _ (List.mem_cons_self _ _)
            have hbad := hall _ hmem
            simp at hbad
        · simp only [stepW, hw, hr, Option.some.injEq, if_neg hd] at hstep
          subst hstep
          refine ⟨?_, ?_, ?_, ?_, ?_, ?_, ?_⟩
          · show (s.queue ++ inflightW (s.workers.set w WPhase.idle) ++
              (s.outcomes ++ [(i, false)]).map Prod.fst).Perm (List.range cfg.iterations)
            rw [hset]
            rw [hdec] at hperm
            rw [← Multiset.coe_eq_coe] at hperm ⊢
            rw [← hperm]
            simp only [inflightW_append, inflightW, phIdx, List.map_append,
              List.map_cons, List.map_nil, ← Multiset.coe_add, ← Multiset.cons_coe,
              ← Multiset.singleton_add, Multiset.coe_nil]
            try abel
          · simp [List.filter_append, hok]
          · simp [List.filter_append, hfail]
          · simp [hdur]
          · intro c hc
            rcases List.mem_append.mp hc with hc | hc
            · exact hcalls c hc
            · rw [List.mem_singleton] at hc
              subst hc
              exact ⟨dk2, hr, rfl⟩
          · simpa using hwlen
          · intro _ hall
            exfalso
            have hmem : WPhase.idle ∈ s.workers.set w WPhase.idle := by
              rw [hset]
              exact List.mem_append_right _ (List.mem_cons_self _ _)
            have hbad := hall _ hmem
            simp at hbad

/-- The invariant holds after any schedule. -/
theorem batchInv_run (cfg : BatchCfg) (beh : Nat → Nat → OpBehavior (List Nat))
    (sched : List Nat) (s : BatchState) (hinv : BatchInv cfg beh s) :
    BatchInv cfg beh (run cfg beh sched s) := by
  induction sched generalizing s with
  | nil => exact hinv
  | cons w ws ih =>
    rw [run, List.foldl_cons]
    cases hsw : stepW cfg beh s w with
    | none => exact ih s hinv
    | some s1 => exact ih s1 (batchInv_step cfg beh hinv hsw)

/-- When all workers are done, no index is claimed. -/
theorem inflightW_allDone (l : List WPhase) (h : ∀ ph ∈ l, ph = WPhase.done) :
    inflightW l = [] := by
  induction l with
  | nil => rfl
  | cons x xs ih =>
    have hx := h x (List.mem_cons_self _ _)
    subst hx
    simp [inflightW, phIdx, ih fun ph hm => h ph (List.mem_cons_of_mem _ hm)]

/-- C1: for every positive iteration count and positive concurrency and
every schedule after which the worker join has completed (all workers
returned), the final counters satisfy `ok + fail = iterations`, and the
recorded iteration outcomes cover every index in `[0, iterations)`
exactly once — each index is claimed by exactly one worker and
contributes exactly one increment, to `ok` or to `fail`. -/
theorem runBatch_counts (cfg : BatchCfg)
    (beh : Nat → Nat → OpBehavior (List Nat)) (sched : List Nat)
    (hI : 0 < cfg.iterations) (hC : 0 < cfg.concurrency)
    (hdone : allDone (run cfg beh sched (initState cfg))) :
    (run cfg beh sched (initState cfg)).ok +
      (run cfg beh sched (initState cfg)).fail = cfg.iterations ∧
    ((run cfg beh sched (initState cfg)).outcomes.map Prod.fst).Perm
      (List.range cfg.iterations) := by
  obtain ⟨hperm, hok, hfail, hdur, hcalls, hwlen, hdone0⟩ :=
    batchInv_run cfg beh sched (initState cfg) (batchInv_init cfg beh)
  set t := run cfg beh sched (initState cfg) with ht
  have hq : t.queue = [] := hdone0 (hwlen ▸ hC) hdone
  have hinf : inflightW t.workers = [] := inflightW_allDone t.workers hdone
  rw [hq, hinf] at hperm
  simp only [List.nil_append] at hperm
  refine ⟨?_, hperm⟩
  have hlen := hperm.length_eq
  rw [List.length_map, List.length_range] at hlen
  rw [hok, hfail, ← hlen]
  exact filterLengthSplit _ _

/-- Witness for C1: two iterations drained by one worker under a
primitive that always succeeds. -/
theorem runBatch_counts_witness :
    (run ⟨"callback", Mode.sequential, 2, 1⟩
        (fun _ _ => OpBehavior.settles 1 (Except.ok [0]))
        [0, 0, 0, 0, 0, 0, 0]
        (initState ⟨"callback", Mode.sequential, 2, 1⟩)).ok +
      (run ⟨"callback", Mode.sequential, 2, 1⟩
        (fun _ _ => OpBehavior.settles 1 (Except.ok [0]))
        [0, 0, 0, 0, 0, 0, 0]
        (initState ⟨"callback", Mode.sequential, 2, 1⟩)).fail = 2 ∧
    ((run ⟨"callback", Mode.sequential, 2, 1⟩
        (fun _ _ => OpBehavior.settles 1 (Except.ok [0]))
        [0, 0, 0, 0, 0, 0, 0]
        (initState ⟨"callback", Mode.sequential, 2, 1⟩)).outcomes.map
          Prod.fst).Perm (List.range 2) :=
  runBatch_counts ⟨"callback", Mode.sequential, 2, 1⟩
    (fun _ _ => OpBehavior.settles 1 (Except.ok [0]))
    [0, 0, 0, 0, 0, 0, 0] (by decide) (by decide) (by decide)

/-- C9: after any schedule of any batch, the latency sample collection
(the collection later sorted and fed to the percentile computation) is
exactly the list of durations of the recorded completed calls, one
sample per completed invocation, and each such invocation settled
successfully before the deadline — a timed-out or erroring call
contributes no sample. -/
theorem runBatch_samples (cfg : BatchCfg)
    (beh : Nat → Nat → OpBehavior (List Nat)) (sched : List Nat) :
    (run cfg beh sched (initState cfg)).callDurations =
      (run cfg beh sched (initState cfg)).completedCalls.map
        (fun c => c.2.2) ∧
    ∀ c ∈ (run cfg beh sched (initState cfg)).completedCalls, ∃ dk,
      (withTimeout (beh c.1 c.2.1) timeoutMs
        (callLabel cfg.variant c.1)).result = Except.ok dk ∧
      (withTimeout (beh c.1 c.2.1) timeoutMs
        (callLabel cfg.variant c.1)).elapsed = c.2.2 := by
  obtain ⟨hperm, hok, hfail, hdur, hcalls, hwlen, hdone0⟩ :=
    batchInv_run cfg beh sched (initState cfg) (batchInv_init cfg beh)
  exact ⟨hdur, hcalls⟩

/-- Witness for C9: one successful call recorded by a one-iteration
batch. -/
theorem runBatch_samples_witness : ∃ dk,
    (withTimeout ((fun _ _ => OpBehavior.settles 1 (Except.ok [0])) 0 1)
      timeoutMs (callLabel "callback" 0)).result = Except.ok dk ∧
    (withTimeout ((fun _ _ => OpBehavior.settles 1 (Except.ok [0])) 0 1)
      timeoutMs (callLabel "callback" 0)).elapsed = 1 :=
  (runBatch_samples ⟨"callback", Mode.random, 1, 1⟩
    (fun _ _ => OpBehavior.settles 1 (Except.ok [0])) [0, 0]).2
    (0, 1, 1) (by decide)

/-- Every step strictly decreases the termination measure. -/
theorem stepW_measure_lt (cfg : BatchCfg)
    (beh : Nat → Nat → OpBehavior (List Nat)) {s s' : BatchState} {w : Nat}
    (hstep : stepW cfg beh s w = some s') : stepMeasure s' < stepMeasure s := by
  cases hw : s.workers[w]? with
  | none => simp [stepW, hw] at hstep
  | some ph =>
    obtain ⟨l1, l2, hdec, hset⟩ := listDecomp s.workers w ph hw
    cases ph with
    | done => simp [stepW, hw] at hstep
    | idle =>
      cases hq : s.queue with
      | nil =>
        simp only [stepW, hw, hq, Option.some.injEq] at hstep
        subst hstep
        simp only [stepMeasure, hset]
        conv_rhs => rw [hdec, hq]
        simp [wSum_append, wSum, wWeight]
      | cons i rest =>
        simp only [stepW, hw, hq, Option.some.injEq] at hstep
        subst hstep
        simp only [stepMeasure, hset]
        conv_rhs => rw [hdec, hq]
        simp [wSum_append, wSum, wWeight, List.length_cons]
        omega
    | run1 i =>
      cases hr : (withTimeout (beh i 1) timeoutMs (callLabel cfg.variant i)).result with
      | error e =>
        simp only [stepW, hw, hr, Option.some.injEq] at hstep
        subst hstep
        simp only [stepMeasure, hset]
        conv_rhs => rw [hdec]
        simp [wSum_append, wSum, wWeight]
      | ok dk =>
        cases hm : cfg.mode with
        | sequential =>
          simp only [stepW, hw, hr, hm, Option.some.injEq] at hstep
          subst hstep
          simp only [stepMeasure, hset]
          conv_rhs => rw [hdec]
          simp [wSum_append, wSum, wWeight]
        | random =>
          simp only [stepW, hw, hr, hm, Option.some.injEq] at hstep
          subst hstep
          simp only [stepMeasure, hset]
          conv_rhs => rw [hdec]
          simp [wSum_append, wSum, wWeight]
    | run2 i dk1 =>
      cases hr : (withTimeout (beh i 2) timeoutMs (callLabel cfg.variant i)).result with
      | error e =>
        simp only [stepW, hw, hr, Option.some.injEq] at hstep
        subst hstep
        simp only [stepMeasure, hset]
        conv_rhs => rw [hdec]
        simp [wSum_append, wSum, wWeight]
      | ok dk2 =>
        by_cases hd : dk1 = dk2
        · subst hd
          simp only [stepW, hw, hr, if_pos, Option.some.injEq] at hstep
          subst hstep
          simp only [stepMeasure, hset]
          conv_rhs => rw [hdec]
          simp [wSum_append, wSum, wWeight]
        · simp only [stepW, hw, hr, if_neg hd, Option.some.injEq] at hstep
          subst hstep
          simp only [stepMeasure, hset]
          conv_rhs => rw [hdec]
          simp [wSum_append, wSum, wWeight]

/-- As long as some worker is not done, some worker can step. -/
theorem stepW_progress (cfg : BatchCfg)
    (beh : Nat → Nat → OpBehavior (List Nat)) (s : BatchState)
    (h : ¬allDone s) : ∃ w s', stepW cfg beh s w = some s' := by
  rw [allDone] at h
  push_neg at h
  obtain ⟨ph, hmem, hne⟩ := h
  obtain ⟨n, hlt, hgetEl⟩ := List.mem_iff_getElem.mp hmem
  have hsome : s.workers[n]? = some ph := by
    rw [List.getElem?_eq_getElem hlt, hgetEl]
  refine ⟨n, ?_⟩
  rw [← Option.isSome_iff_exists]
  cases ph with
  | done => exact absurd rfl hne
  | idle =>
    cases hq : s.queue with
    | nil => simp [stepW, hsome, hq]
    | cons i rest => simp [stepW, hsome, hq]
  | run1 i =>
    cases hr : (withTimeout (beh i 1) timeoutMs (callLabel cfg.variant i)).result with
    | error e => simp [stepW, hsome, hr]
    | ok dk =>
      cases hm : cfg.mode with
      | sequential => simp [stepW, hsome, hr, hm]
      | random => simp [stepW, hsome, hr, hm]
  | run2 i dk1 =>
    cases hr : (withTimeout (beh i 2) timeoutMs (callLabel cfg.variant i)).result with
    | error e => simp [stepW, hsome, hr]
    | ok dk2 =>
      by_cases hd : dk1 = dk2
      · simp [stepW, hsome, hr, hd]
      · simp [stepW, hsome, hr, hd]

/-- From any state, some schedule drives the pool to completion (strong
induction on the termination measure). -/
theorem runBatch_completes_from (cfg : BatchCfg)
    (beh : Nat → Nat → OpBehavior (List Nat)) :
    ∀ (n : Nat) (s : BatchState), stepMeasure s ≤ n →
      ∃ sched, allDone (run cfg beh sched s) := by
  intro n
  induction n with
  | zero =>
    intro s hs
    by_cases hd : allDone s
    · exact ⟨[], hd⟩
    · obtain ⟨w, s', hw⟩ := stepW_progress cfg beh s hd
      have := stepW_measure_lt cfg beh hw
      omega
  | succ n ih =>
    intro s hs
    by_cases hd : allDone s
    · exact ⟨[], hd⟩
    · obtain ⟨w, s', hw⟩ := stepW_progress cfg beh s hd
      have hlt := stepW_measure_lt cfg beh hw
      obtain ⟨sched, hsched⟩ := ih s' (by omega)
      refine ⟨w :: sched, ?_⟩
      rw [run, List.foldl_cons]
      simp only [hw, Option.getD_some]
      exact hsched

/-- C4: failures are confined to the task that raised them. A thrown
error or timeout at the first or second invocation is caught inside the
loop body: the step exists (nothing propagates), it counts one failure,
records `{index, message, code}`, returns the worker to the loop head
(it continues with the next index), and — visible in the record
update — touches neither the queue, the counters of other outcomes,
nor any sibling worker's phase. Moreover every step strictly decreases
the termination measure, a not-yet-joined pool can always step, and
from any state some schedule completes the batch, so the batch always
runs to completion and returns its (total) result record. -/
theorem runBatch_fault_isolation (cfg : BatchCfg)
    (beh : Nat → Nat → OpBehavior (List Nat)) :
    (∀ (s : BatchState) (w i : Nat) (e : JsError),
      s.workers[w]? = some (WPhase.run1 i) →
      (withTimeout (beh i 1) timeoutMs (callLabel cfg.variant i)).result =
        Except.error e →
      stepW cfg beh s w = some
        { s with fail := s.fail + 1,
                 errors := s.errors ++ [ErrorRec.error i e.message e.code],
                 workers := s.workers.set w WPhase.idle,
                 outcomes := s.outcomes ++ [(i, false)] }) ∧
    (∀ (s : BatchState) (w i : Nat) (dk1 : List Nat) (e : JsError),
      s.workers[w]? = some (WPhase.run2 i dk1) →
      (withTimeout (beh i 2) timeoutMs (callLabel cfg.variant i)).result =
        Except.error e →
      stepW cfg beh s w = some
        { s with fail := s.fail + 1,
                 errors := s.errors ++ [ErrorRec.error i e.message e.code],
                 workers := s.workers.set w WPhase.idle,
                 outcomes := s.outcomes ++ [(i, false)] }) ∧
    (∀ {s s' : BatchState} {w : Nat}, stepW cfg beh s w = some s' →
      stepMeasure s' < stepMeasure s) ∧
    (∀ s : BatchState, ¬allDone s → ∃ w s', stepW cfg beh s w = some s') ∧
    (∀ s : BatchState, ∃ sched, allDone (run cfg beh sched s)) := by
  refine ⟨?_, ?_, ?_, stepW_progress cfg beh, ?_⟩
  · intro s w i e hw hr
    simp [stepW, hw, hr]
  · intro s w i dk1 e hw hr
    simp [stepW, hw, hr]
  · intro s s' w hstep
    exact stepW_measure_lt cfg beh hstep
  · intro s
    exact runBatch_completes_from cfg beh (stepMeasure s) s le_rfl

/-- Behaviour oracle used by the fault-isolation witness: an operation
that never settles (a timeout at every call). -/
def c4Beh : Nat → Nat → OpBehavior (List Nat) := fun _ _ => OpBehavior.never

/-- One-worker state suspended in the first call of index 0. -/
def c4State : BatchState :=
  { queue := []
    ok := 0
    fail := 0
    errors := []
    callDurations := []
    workers := [WPhase.run1 0]
    outcomes := []
    completedCalls := [] }

/-- Witness for C4: the timed-out first call of index 0 is converted into
one recorded failure and the worker returns to its loop head. -/
theorem runBatch_fault_isolation_witness :
    stepW ⟨"callback", Mode.sequential, 1, 1⟩ c4Beh c4State 0 = some
      { c4State with
          fail := c4State.fail + 1,
          errors := c4State.errors ++ [ErrorRec.error 0
            (timeoutError timeoutMs (callLabel "callback" 0)).message
            (timeoutError timeoutMs (callLabel "callback" 0)).code],
          workers := c4State.workers.set 0 WPhase.idle,
          outcomes := c4State.outcomes ++ [(0, false)] } :=
  (runBatch_fault_isolation ⟨"callback", Mode.sequential, 1, 1⟩ c4Beh).1
    c4State 0 0 (timeoutError timeoutMs (callLabel "callback" 0))
    (by decide) (by decide)

/-- Mutable state of the earlier runner version (scrypt-bench.mjs lines
123-171): same queue, counters, error list, and worker pool, but no
latency collection and no metrics. -/
structure BatchState0 where
  queue : List Nat
  ok : Nat
  fail : Nat
  errors : List ErrorRec
  workers : List WPhase
deriving DecidableEq, Repr

/-- Timeout label of the earlier version (scrypt-bench.mjs lines 138 and
143): it carries a `#1` / `#2` call-number suffix that part_000's label
does not. -/
def callLabel0 (variant : String) (i k : Nat) : String :=
  variant ++ " i=" ++ toString i ++ " #" ++ toString k

/-- One scheduler step of the earlier version's worker pool
(scrypt-bench.mjs lines 131-167), under the same behaviour oracle. -/
def stepW0 (cfg : BatchCfg) (beh : Nat → Nat → OpBehavior (List Nat))
    (s : BatchState0) (w : Nat) : Option BatchState0 :=
  match s.workers[w]? with
  | none => none
  | some WPhase.done => none
  | some WPhase.idle =>
    match s.queue with
    | [] => some { s with workers := s.workers.set w WPhase.done }
    | i :: rest =>
      some { s with queue := rest, workers := s.workers.set w (WPhase.run1 i) }
  | some (WPhase.run1 i) =>
    match (withTimeout (beh i 1) timeoutMs (callLabel0 cfg.variant i 1)).result with
    | Except.error e =>
      some { s with fail := s.fail + 1,
                    errors := s.errors ++ [ErrorRec.error i e.message e.code],
                    workers := s.workers.set w WPhase.idle }
    | Except.ok dk =>
      match cfg.mode with
      | Mode.sequential =>
        some { s with workers := s.workers.set w (WPhase.run2 i dk) }
      | Mode.random =>
        some { s with ok := s.ok + 1, workers := s.workers.set w WPhase.idle }
  | some (WPhase.run2 i dk1) =>
    match (withTimeout (beh i 2) timeoutMs (callLabel0 cfg.variant i 2)).result with
    | Except.error e =>
      some { s with fail := s.fail + 1,
                    errors := s.errors ++ [ErrorRec.error i e.message e.code],
                    workers := s.workers.set w WPhase.idle }
    | Except.ok dk2 =>
      if dk1 = dk2 then
        some { s with ok := s.ok + 1, workers := s.workers.set w WPhase.idle }
      else
        some { s with fail := s.fail + 1,
                      errors := s.errors ++
                        [ErrorRec.mismatch i (hexTrunc dk1) (hexTrunc dk2)],
                      workers := s.workers.set w WPhase.idle }

/-- Start state of the earlier version's batch. -/
def initState0 (cfg : BatchCfg) : BatchState0 :=
  { queue := (List.range cfg.iterations).reverse
    ok := 0
    fail := 0
    errors := []
    workers := List.replicate cfg.concurrency WPhase.idle }

/-- Run a schedule on the earlier version. -/
def run0 (cfg : BatchCfg) (beh : Nat → Nat → OpBehavior (List Nat))
    (sched : List Nat) (s : BatchState0) : BatchState0 :=
  sched.foldl (fun t w => (stepW0 cfg beh t w).getD t) s

/-- Correspondence between a part_000 state and a scrypt-bench.mjs state:
equal queues, counters and worker pools; error lists equal up to the
`(type, index)` view (the timeout messages differ, by the label
suffix). -/
structure SimRel (s : BatchState) (s0 : BatchState0) : Prop where
  queueEq : s.queue = s0.queue
  okEq : s.ok = s0.ok
  failEq : s.fail = s0.fail
  errorsEq : s.errors.map ErrorRec.tagIdx = s0.errors.map ErrorRec.tagIdx
  workersEq : s.workers = s0.workers

/-- A timeout-guarded call's success value, and whether it errs, do not
depend on the label: only the error contents can differ. -/
theorem withTimeout_label_cases {α : Type} (op : OpBehavior α) (ms : ℚ)
    (L1 L2 : String) :
    (∀ dk : α, (withTimeout op ms L1).result = Except.ok dk ↔
      (withTimeout op ms L2).result = Except.ok dk) ∧
    (∀ e, (withTimeout op ms L1).result = Except.error e →
      ∃ e', (withTimeout op ms L2).result = Except.error e') := by
  cases op with
  | settles t r =>
    by_cases h : t < ms
    · constructor
      · intro dk
        simp [withTimeout, h]
      · intro e he
        simp only [withTimeout, if_pos h] at he ⊢
        exact ⟨e, he⟩
    · constructor
      · intro dk
        simp [withTimeout, h]
      · intro e _
        exact ⟨timeoutError ms L2, by simp [withTimeout, h]⟩
  | never =>
    constructor
    · intro dk
      simp [withTimeout]
    · intro e _
      exact ⟨timeoutError ms L2, rfl⟩

/-- Lockstep simulation: under the same oracle and the same worker
choice, the two versions step together and stay related. -/
theorem stepSim (cfg : BatchCfg) (beh : Nat → Nat → OpBehavior (List Nat))
    {s : BatchState} {s0 : BatchState0} (w : Nat) (hsim : SimRel s s0) :
    (stepW cfg beh s w = none ∧ stepW0 cfg beh s0 w = none) ∨
    ∃ s' s0', stepW cfg beh s w = some s' ∧ stepW0 cfg beh s0 w = some s0' ∧
      SimRel s' s0' := by
  obtain ⟨hq, hok, hfail, herr, hwork⟩ := hsim
  cases hw : s.workers[w]? with
  | none =>
    left
    have hw0 : s0.workers[w]? = none := by
      rw [← hwork]
      exact hw
    constructor
    · simp [stepW, hw]
    · simp [stepW0, hw0]
  | some ph =>
    have hw0 : s0.workers[w]? = some ph := by
      rw [← hwork]
      exact hw
    cases ph with
    | done =>
      left
      constructor
      · simp [stepW, hw]
      · simp [stepW0, hw0]
    | idle =>
      right
      cases hqq : s.queue with
      | nil =>
        have hqq0 : s0.queue = [] := by
          rw [← hq]
          exact hqq
        refine ⟨
          { s with workers := s.workers.set w WPhase.done },
          { s0 with workers := s0.workers.set w WPhase.done },
          by simp [stepW, hw, hqq], by simp [stepW0, hw0, hqq0], ?_⟩
        exact ⟨hq, hok, hfail, herr, by rw [hwork]⟩
      | cons i rest =>
        have hqq0 : s0.queue = i :: rest := by
          rw [← hq]
          exact hqq
        refine ⟨
          { s with
              queue := rest,
              workers := s.workers.set w (WPhase.run1 i) },
          { s0 with
              queue := rest,
              workers := s0.workers.set w (WPhase.run1 i) },
          by simp [stepW, hw, hqq], by simp [stepW0, hw0, hqq0], ?_⟩
        exact ⟨rfl, hok, hfail, herr, by rw [hwork]⟩
    | run1 i =>
      right
      obtain ⟨hokIff, hErrEx⟩ := withTimeout_label_cases (beh i 1) timeoutMs
        (callLabel cfg.variant i) (callLabel0 cfg.variant i 1)
      cases hr : (withTimeout (beh i 1) timeoutMs (callLabel cfg.variant i)).result with
      | error e =>
        obtain ⟨e', hr0⟩ := hErrEx e hr
        refine ⟨
          { s with
              fail := s.fail + 1,
              errors := s.errors ++ [ErrorRec.error i e.message e.code],
              workers := s.workers.set w WPhase.idle,
              outcomes := s.outcomes ++ [(i, false)] },
          { s0 with
              fail := s0.fail + 1,
              errors := s0.errors ++ [ErrorRec.error i e'.message e'.code],
              workers := s0.workers.set w WPhase.idle },
          by simp [stepW, hw, hr], by simp [stepW0, hw0, hr0], ?_⟩
        refine ⟨hq, hok, by simp [hfail], ?_, by rw [hwork]⟩
        simp [List.map_append, herr, ErrorRec.tagIdx]
      | ok dk =>
        have hr0 : (withTimeout (beh i 1) timeoutMs
            (callLabel0 cfg.variant i 1)).result = Except.ok dk := (hokIff dk).mp hr
        cases hm : cfg.mode with
        | sequential =>
          refine ⟨
            { s with
                callDurations := s.callDurations ++
                  [(withTimeout (beh i 1) timeoutMs (callLabel cfg.variant i)).elapsed],
                completedCalls := s.completedCalls ++
                  [(i, 1, (withTimeout (beh i 1) timeoutMs (callLabel cfg.variant i)).elapsed)],
                workers := s.workers.set w (WPhase.run2 i dk) },
            { s0 with workers := s0.workers.set w (WPhase.run2 i dk) },
            by simp [stepW, hw, hr, hm], by simp [stepW0, hw0, hr0, hm], ?_⟩
          exact ⟨hq, hok, hfail, herr, by rw [hwork]⟩
        | random =>
          refine ⟨
            { s with
                callDurations := s.callDurations ++
                  [(withTimeout (beh i 1) timeoutMs (callLabel cfg.variant i)).elapsed],
                completedCalls := s.completedCalls ++
                  [(i, 1, (withTimeout (beh i 1) timeoutMs (callLabel cfg.variant i)).elapsed)],
                ok := s.ok + 1,
                workers := s.workers.set w WPhase.idle,
                outcomes := s.outcomes ++ [(i, true)] },
            { s0 with
                ok := s0.ok + 1,
                workers := s0.workers.set w WPhase.idle },
            by simp [stepW, hw, hr, hm], by simp [stepW0, hw0, hr0, hm], ?_⟩
          exact ⟨hq, by simp [hok], hfail, herr, by rw [hwork]⟩
    | run2 i dk1 =>
      right
      obtain ⟨hokIff, hErrEx⟩ := withTimeout_label_cases (beh i 2) timeoutMs
        (callLabel cfg.variant i) (callLabel0 cfg.variant i 2)
      cases hr : (withTimeout (beh i 2) timeoutMs (callLabel cfg.variant i)).result with
      | error e =>
        obtain ⟨e', hr0⟩ := hErrEx e hr
        refine ⟨
          { s with
              fail := s.fail + 1,
              errors := s.errors ++ [ErrorRec.error i e.message e.code],
              workers := s.workers.set w WPhase.idle,
              outcomes := s.outcomes ++ [(i, false)] },
          { s0 with
              fail := s0.fail + 1,
              errors := s0.errors ++ [ErrorRec.error i e'.message e'.code],
              workers := s0.workers.set w WPhase.idle },
          by simp [stepW, hw, hr], by simp [stepW0, hw0, hr0], ?_⟩
        refine ⟨hq, hok, by simp [hfail], ?_, by rw [hwork]⟩
        simp [List.map_append, herr, ErrorRec.tagIdx]
      | ok dk2 =>
        have hr0 : (withTimeout (beh i 2) timeoutMs
            (callLabel0 cfg.variant i 2)).result = Except.ok dk2 := (hokIff dk2).mp hr
        by_cases hd : dk1 = dk2
        · refine ⟨
            { s with
                callDurations := s.callDurations ++
                  [(withTimeout (beh i 2) timeoutMs (callLabel cfg.variant i)).elapsed],
                completedCalls := s.completedCalls ++
                  [(i, 2, (withTimeout (beh i 2) timeoutMs (callLabel cfg.variant i)).elapsed)],
                ok := s.ok + 1,
                workers := s.workers.set w WPhase.idle,
                outcomes := s.outcomes ++ [(i, true)] },
            { s0 with
                ok := s0.ok + 1,
                workers := s0.workers.set w WPhase.idle },
            by simp [stepW, hw, hr, hd], by simp [stepW0, hw0, hr0, hd], ?_⟩
          exact ⟨hq, by simp [hok], hfail, herr, by rw [hwork]⟩
        · refine ⟨
            { s with
                callDurations := s.callDurations ++
                  [(withTimeout (beh i 2) timeoutMs (callLabel cfg.variant i)).elapsed],
                completedCalls := s.completedCalls ++
                  [(i, 2, (withTimeout (beh i 2) timeoutMs (callLabel cfg.variant i)).elapsed)],
                fail := s.fail + 1,
                errors := s.errors ++
                  [ErrorRec.mismatch i (hexTrunc dk1) (hexTrunc dk2)],
                workers := s.workers.set w WPhase.idle,
                outcomes := s.outcomes ++ [(i, false)] },
            { s0 with
                fail := s0.fail + 1,
                errors := s0.errors ++
                  [ErrorRec.mismatch i (hexTrunc dk1) (hexTrunc dk2)],
                workers := s0.workers.set w WPhase.idle },
            by simp [stepW, hw, hr, hd], by simp [stepW0, hw0, hr0, hd], ?_⟩
          refine ⟨hq, hok, by simp [hfail], ?_, by rw [hwork]⟩
          simp [List.map_append, herr, ErrorRec.tagIdx]

/-- The simulation extends to whole schedules. -/
theorem runSim (cfg : BatchCfg) (beh : Nat → Nat → OpBehavior (List Nat))
    (sched : List Nat) {s : BatchState} {s0 : BatchState0}
    (hsim : SimRel s s0) :
    SimRel (run cfg beh sched s) (run0 cfg beh sched s0) := by
  induction sched generalizing s s0 with
  | nil => exact hsim
  | cons w ws ih =>
    rw [run, List.foldl_cons, run0, List.foldl_cons]
    rcases stepSim cfg beh w hsim with ⟨h1, h2⟩ | ⟨s', s0', h1, h2, hsim'⟩
    · rw [h1, h2]
      exact ih hsim
    · rw [h1, h2]
      exact ih hsim'

/-- C10: under any configuration, any abstract per-call primitive
behaviour (result, error, or non-settlement), and any scheduler
interleaving, the two runner versions produce the same `ok` count, the
same `fail` count, and failure records of the same types at the same
indices (the later version differs only by the latency/throughput
metrics it additionally collects, and by the `#1`/`#2` suffix in
timeout messages). -/
theorem runBatch_equiv (cfg : BatchCfg)
    (beh : Nat → Nat → OpBehavior (List Nat)) (sched : List Nat) :
    (run cfg beh sched (initState cfg)).ok =
      (run0 cfg beh sched (initState0 cfg)).ok ∧
    (run cfg beh sched (initState cfg)).fail =
      (run0 cfg beh sched (initState0 cfg)).fail ∧
    (run cfg beh sched (initState cfg)).errors.map ErrorRec.tagIdx =
      (run0 cfg beh sched (initState0 cfg)).errors.map ErrorRec.tagIdx := by
  obtain ⟨hq, hok, hfail, herr, hwork⟩ :=
    @runSim cfg beh sched (initState cfg) (initState0 cfg)
      ⟨rfl, rfl, rfl, rfl, rfl⟩
  exact ⟨hok, hfail, herr⟩
